import Mathlib

/-!
Verification of the path-reconciliation core of `generate_COMPSs_RO-Crate.py`.

The Python source is shallowly embedded below.  Strings are Lean `String`s
(lists of characters), Python `set`s of strings are lists kept free of
duplicates by a membership-guarded insert, and the Python loops that mutate
the list they iterate over are embedded with the exact index-based semantics
of CPython's list iterator (an index into the current state of the list,
with `append`/`remove` reflected as `++ [x]` / `List.erase`).  Fallible
code (operations that can raise `IndexError` / `ValueError`) returns
`Option`.
-/

namespace COMPSs

/-- Characters CPython's `urllib.parse` accepts inside a URL scheme
(`scheme_chars = alphanumerics + "+-."`). -/
def schemeChar (c : Char) : Bool :=
  c.isAlpha || c.isDigit || c = '+' || c = '-' || c = '.'

/-- Scan for the first `':'`; succeed with the characters before it provided
they are all scheme characters (mirrors `url.find(':')` followed by the
validation loop in `urllib.parse.urlsplit`). -/
def splitAtColon : List Char → Option (List Char × List Char)
  | [] => none
  | c :: cs =>
    if c = ':' then some ([], cs)
    else if schemeChar c then
      match splitAtColon cs with
      | some (sch, rest) => some (c :: sch, rest)
      | none => none
    else none

/-- Extract the (lower-cased) scheme of a URL, as `urlsplit` does: the first
character must be an ASCII letter, the characters up to the first `':'` must
all be scheme characters, and the `':'` must exist. -/
def splitSchemeChars (l : List Char) : List Char × List Char :=
  match l with
  | [] => ([], [])
  | c :: cs =>
    if c.isAlpha then
      match splitAtColon cs with
      | some (sch, rest) => ((c :: sch).map Char.toLower, rest)
      | none => ([], l)
    else ([], l)

/-- `_splitnetloc`: if the remainder starts with `//`, the netloc runs up to
the next `'/'`, `'?'` or `'#'`. -/
def netlocSplit (l : List Char) : List Char × List Char :=
  match l with
  | '/' :: '/' :: rest =>
    (rest.takeWhile (fun c => ¬(c = '/' ∨ c = '?' ∨ c = '#')),
     rest.dropWhile (fun c => ¬(c = '/' ∨ c = '?' ∨ c = '#')))
  | _ => ([], l)

/-- Python's `s.split(sep, 1)`: the part before the first occurrence of
`sep` and the part after it (the whole string and `[]` when absent). -/
def splitFirst (sep : Char) (l : List Char) : List Char × List Char :=
  (l.takeWhile (fun c => c ≠ sep), (l.dropWhile (fun c => c ≠ sep)).tail)

/-- Result of `urllib.parse.urlsplit`. -/
structure SplitUrl where
  scheme : String
  netloc : String
  path : String
  query : String
  fragment : String
  deriving Repr, DecidableEq

/-- `urllib.parse.urlsplit`, in CPython's order: scheme, then netloc, then
fragment, then query; the rest is the path.  (The IPv6-bracket and netloc
unicode validations, which only raise for URLs not occurring here, are not
modelled.) -/
def urlsplit (url : String) : SplitUrl :=
  let p1 := splitSchemeChars url.data
  let p2 := netlocSplit p1.2
  let p3 := splitFirst '#' p2.2
  let p4 := splitFirst '?' p3.1
  ⟨String.mk p1.1, String.mk p2.1, String.mk p4.1, String.mk p4.2, String.mk p3.2⟩

/-- `fix_dir_url` (source lines 50–68): change a `dir://` URL to `file://`
and ensure it ends with `'/'`. -/
def fix_dir_url (in_url : String) : String :=
  let runtime_url := urlsplit in_url
  if runtime_url.scheme = "dir" then
    let new_url := "file://" ++ runtime_url.netloc ++ runtime_url.path
    if new_url.data.getLast? ≠ some '/' then new_url ++ "/" else new_url
  else in_url

example : fix_dir_url "dir://host/some/path" = "file://host/some/path/" := by decide
example : fix_dir_url "file://host/some/path" = "file://host/some/path" := by decide
example : fix_dir_url "dir://host/some/path/" = "file://host/some/path/" := by decide
example : (urlsplit "dir://h/a b").path = "/a b" := by decide
example : (urlsplit "/data/x/f1").scheme = "" ∧ (urlsplit "/data/x/f1").path = "/data/x/f1" := by decide

/-! ## The Log Parser (`process_accessed_files`, source lines 429–493) -/

/-- Python's `str.rstrip()` (restricted to ASCII whitespace, which is all
that occurs in the log): drop trailing whitespace characters. -/
def pyRstrip (s : String) : String :=
  String.mk ((s.data.reverse.dropWhile fun c =>
    c = ' ' ∨ c = '\t' ∨ c = '\n' ∨ c = '\x0d' ∨ c = '\x0b' ∨ c = '\x0c').reverse)

/-- Python's `str.split(sep)` for a one-character separator: split at every
occurrence, keeping empty pieces (`"".split(" ") = [""]`). -/
def splitChar (sep : Char) : List Char → List (List Char)
  | [] => [[]]
  | c :: cs =>
    if c = sep then [] :: splitChar sep cs
    else
      match splitChar sep cs with
      | h :: t => (c :: h) :: t
      | [] => [[c]]

/-- `line.rstrip().split(" ")` applied to one log line. -/
def parseLine (line : String) : List String :=
  (splitChar ' ' (pyRstrip line).data).map String.mk

/-- Adding an element to a Python `set` modelled as a duplicate-free list. -/
def setAdd (s : List String) (x : String) : List String :=
  if x ∈ s then s else s ++ [x]

/-- One iteration of the classification loop of `process_accessed_files`
(source lines 445–468), on the state `(inputs, outputs)`: records that are
not exactly two fields are dismissed; `IN`/`IN_DELETE` add to `inputs`
unless the URI is already in `outputs`; `OUT` adds to `outputs`; any other
token adds to `inputs` unless already in `outputs`, and always to
`outputs`. -/
def classifyLine (st : List String × List String) (file_record : List String) :
    List String × List String :=
  match file_record with
  | [uri, d] =>
    if d = "IN" ∨ d = "IN_DELETE" then
      if uri ∉ st.2 then (setAdd st.1 uri, st.2) else st
    else if d = "OUT" then (st.1, setAdd st.2 uri)
    else -- INOUT, COMMUTATIVE, CONCURRENT
      (if uri ∉ st.2 then setAdd st.1 uri else st.1, setAdd st.2 uri)
  | _ => st

/-- The classification stage of `process_accessed_files`: fold the loop over
the lines of `dataprovenance.log`, starting from two empty sets. -/
def classifyLog (lines : List String) : List String × List String :=
  lines.foldl (fun st line => classifyLine st (parseLine line)) ([], [])

/-- Python string `<=`: lexicographic comparison by code point. -/
def lexLe : List Char → List Char → Bool
  | [], _ => true
  | _ :: _, [] => false
  | a :: as, b :: bs => if a = b then lexLe as bs else decide (a < b)

/-- Insert into a sorted list (used to model `list.sort()`; on the
duplicate-free lists modelling sets, every correct sort produces the same
list, so the choice of algorithm is immaterial). -/
def insertSorted (x : String) : List String → List String
  | [] => [x]
  | y :: ys => if lexLe x.data y.data then x :: y :: ys else y :: insertSorted x ys

/-- Python `list.sort()` (ascending). -/
def pySort (l : List String) : List String := l.foldr insertSorted []

/-- The `dir://` fix-up loop of `process_accessed_files` (source lines
476–484), with CPython's exact list-iterator semantics: the iterator is an
index into the list being mutated, `append` puts the fixed URL at the end
and `remove` deletes the first occurrence of the current item (so removing
the current item shifts the next one under the advancing index).  The
length of the list is invariant across mutating steps, so a fuel of the
initial length covers every iteration the Python loop performs. -/
def fixDirsFrom (hostname : String) : Nat → Nat → List String → List String
  | 0, _, l => l
  | fuel + 1, idx, l =>
    match l[idx]? with
    | none => l
    | some item =>
      let url_parts := urlsplit item
      if url_parts.scheme = "dir" then
        fixDirsFrom hostname fuel (idx + 1)
          ((l ++ ["dir://" ++ hostname ++ url_parts.path ++ "/"]).erase item)
      else l  -- break: a file has been reached

/-- `for item in data_list: ...` fix-up pass followed by `data_list.sort()`
(source lines 476–484). -/
def fixDirs (hostname : String) (l : List String) : List String :=
  pySort (fixDirsFrom hostname l.length 0 l)

/-- `process_accessed_files` (source lines 429–493).  The contents of
`DP_LOG` are passed as the list of its lines and `socket.gethostname()` as
`hostname`. -/
def process_accessed_files (hostname : String) (lines : List String) :
    List String × List String :=
  let st := classifyLog lines
  let l_ins := pySort st.1
  let l_outs := pySort st.2
  (fixDirs hostname l_ins, fixDirs hostname l_outs)

example : classifyLog ["A.txt IN", "B.txt OUT", "A.txt IN"] = (["A.txt"], ["B.txt"]) := by decide
example : classifyLog ["A.txt OUT", "A.txt IN"] = ([], ["A.txt"]) := by decide
example : classifyLog ["A.txt IN", "A.txt OUT"] = (["A.txt"], ["A.txt"]) := by decide
example : process_accessed_files "h" ["dir://h/a IN", "dir://h/b IN"] =
    (["dir://h/a//", "dir://h/b"], []) := by decide
example : process_accessed_files "h" ["dir://h/a IN", "file://h/x OUT"] =
    (["dir://h/a/"], ["file://h/x"]) := by decide

/-! ## POSIX path helpers (`pathlib.PurePosixPath` and `os.path.commonpath`) -/

/-- Join path components with `'/'` (`sep.join`). -/
def joinChar (sep : Char) : List (List Char) → List Char
  | [] => []
  | [c] => c
  | c :: cs => c ++ sep :: joinChar sep cs

/-- The path components both `pathlib` and `posixpath.commonpath` work with:
split on `'/'` and drop empty and `"."` pieces. -/
def pyPathComps (l : List Char) : List (List Char) :=
  (splitChar '/' l).filter fun c => ¬(c = [] ∨ c = ['.'])

/-- The root of a POSIX path as `pathlib` parses it: `"//"` for exactly two
leading slashes, `"/"` for one or for three and more, empty otherwise. -/
def posixRootOf (l : List Char) : List Char :=
  if l.head? = some '/' then
    if l.tail.head? = some '/' ∧ l.tail.tail.head? ≠ some '/' then ['/', '/'] else ['/']
  else []

/-- `str(Path(p).parents[0])`: drop the last component; `none` models the
`IndexError` raised when the path has no components (e.g. `"/"`, `"."`). -/
def pyParent (p : String) : Option String :=
  let root := posixRootOf p.data
  let parts := pyPathComps p.data
  if parts = [] then none
  else
    let ps := parts.dropLast
    if root = [] ∧ ps = [] then some "."
    else some (String.mk (root ++ joinChar '/' ps))

/-- Longest common component run of two component lists. -/
def commonPrefixL : List (List Char) → List (List Char) → List (List Char)
  | a :: as, b :: bs => if a = b then a :: commonPrefixL as bs else []
  | _, _ => []

/-- `os.path.commonpath([p, q])` for POSIX (`p[:1] == sep` decides
absoluteness); `none` models the `ValueError` raised when absolute and
relative paths are mixed. -/
def commonpath2 (p q : String) : Option String :=
  let pa : Bool := p.data.head? = some '/'
  let qa : Bool := q.data.head? = some '/'
  if pa ≠ qa then none
  else
    some (String.mk ((if pa then ['/'] else []) ++
      joinChar '/' (commonPrefixL (pyPathComps p.data) (pyPathComps q.data))))

example : pyParent "/data/x/f1" = some "/data/x" := by decide
example : pyParent "/f1" = some "/" := by decide
example : pyParent "/" = none := by decide
example : pyParent "//a/b" = some "//a" := by decide
example : commonpath2 "/data/y/f2" "/data/x" = some "/data" := by decide
example : commonpath2 "/b/f2" "/a" = some "/" := by decide
example : commonpath2 "/a" "b" = none := by decide

/-! ## The Common-Path Resolver (`get_common_paths`, source lines 1391–1465) -/

/-- The leading-directories loop of `get_common_paths` (source lines
1407–1419): collect the paths of the `dir://` entries at the head of the
list (deduplicated, in order) and return them together with the remainder
of the list from the first non-`dir://` entry on (empty iff no file was
found). -/
def gcpLead (acc : List String) : List String → List String × List String
  | [] => (acc, [])
  | u :: us =>
    let url_parts := urlsplit u
    if url_parts.scheme = "dir" then
      gcpLead (if url_parts.path ∈ acc then acc else acc ++ [url_parts.path]) us
    else (acc, u :: us)

/-- The main loop of `get_common_paths` (source lines 1433–1451): shrink
`common_path` by `os.path.commonpath` against each further file, flushing it
into the accumulator and reseeding from the file's parent whenever the
common path degenerates to the root. -/
def gcpLoop (common_path : String) (acc : List String) :
    List String → Option (String × List String)
  | [] => some (common_path, acc)
  | u :: us =>
    let url_parts := urlsplit u
    match commonpath2 url_parts.path common_path with
    | none => none
    | some tmp =>
      if tmp ≠ "/" then gcpLoop tmp acc us
      else
        match pyParent url_parts.path with
        | none => none
        | some par =>
          gcpLoop par (if common_path ∈ acc then acc else acc ++ [common_path]) us

/-- The trailing-slash normalization loop of `get_common_paths` (source
lines 1458–1461), again with CPython's index-based iterator semantics over
the mutating list; `none` models the `IndexError` of `item[-1]` on an empty
string. -/
def slashFixFrom : Nat → Nat → List String → Option (List String)
  | 0, _, l => some l
  | fuel + 1, idx, l =>
    match l[idx]? with
    | none => some l
    | some item =>
      match item.data.getLast? with
      | none => none
      | some c =>
        if c ≠ '/' then slashFixFrom fuel (idx + 1) ((l ++ [item ++ "/"]).erase item)
        else slashFixFrom fuel (idx + 1) l

/-- `get_common_paths` (source lines 1391–1465). -/
def get_common_paths (url_list : List String) : Option (List String) :=
  match url_list with
  | [] => some []
  | _ :: _ =>
    let lead := gcpLead [] url_list
    match lead.2 with
    | [] => some lead.1  -- all are directories: returned without normalization
    | f :: fs =>
      match pyParent (urlsplit f).path with
      | none => none
      | some cp0 =>
        match gcpLoop cp0 lead.1 fs with
        | none => none
        | some (cp, acc) =>
          let acc2 := if cp ∈ acc then acc else acc ++ [cp]
          slashFixFrom acc2.length 0 acc2

example : get_common_paths ["/data/x/f1", "/data/y/f2"] = some ["/data/"] := by decide
example : get_common_paths ["/a/f1", "/b/f2"] = some ["/b", "/a/"] := by decide
example : get_common_paths ["file://h/data/f1", "file://h/data/f2"] = some ["/data/"] := by decide
example : get_common_paths ["file://h/f1", "file://h/f2"] = some ["/"] := by decide
example : get_common_paths ["dir://h/d/", "file://h/d/x"] = some ["/d/", "/d/"] := by decide

/-! ## The Dataset Reconciler pruning pass and the cross-role fix-up -/

/-- Python's `s.startswith(d)`. -/
def pyStartswith (s d : String) : Bool := d.data.isPrefixOf s.data

/-- A loop of the shape `for item in copy: if cond(item): live.remove(item)`
(iteration over a fixed copy or slice, `remove` deleting the first
occurrence from the live list).  Both removal loops below are instances. -/
def eraseIf (cond : String → Bool) (l : List String) (items : List String) : List String :=
  items.foldl (fun acc it => if cond it then acc.erase it else acc) l

/-- The topmost-directories loop of `add_manual_datasets` (source lines
1523–1539): walk the leading `dir://` entries, collecting a path only when
it neither is already collected nor extends an already-collected one; stop
at the first non-`dir://` entry, reporting whether one was found. -/
def collectTopDirs (acc : List String) : List String → List String × Bool
  | [] => (acc, false)
  | u :: us =>
    let url_parts := urlsplit u
    if url_parts.scheme = "dir" then
      collectTopDirs
        (if url_parts.path ∉ acc ∧
            ¬acc.any (fun dir_item => pyStartswith url_parts.path dir_item)
         then acc ++ [url_parts.path] else acc) us
    else (acc, true)

/-- The pruning passage of `add_manual_datasets` (source lines 1522–1564),
applied to the merged, re-sorted `data_list`: when a non-`dir://` entry
exists, every entry of a copy of the list whose path is a strict extension
of a collected topmost directory is removed from the live list.  (The
preceding filesystem-probing merge of user-declared entities, lines
1483–1518, is outside this claim's scope and not modelled.) -/
def add_manual_datasets_prune (data_list : List String) : List String :=
  let c := collectTopDirs [] data_list
  if c.2 then
    eraseIf
      (fun item => c.1.any fun dir_path =>
        !((urlsplit item).path == dir_path) && pyStartswith (urlsplit item).path dir_path)
      data_list data_list
  else data_list

/-- The output-directories loop of `fix_in_files_at_out_dirs` (source lines
1587–1596): collect (deduplicated) the paths of the leading `dir://` entries
of the outputs list, stopping at the first non-`dir://` entry. -/
def outDirsLead (acc : List String) : List String → List String
  | [] => acc
  | u :: us =>
    let url_parts := urlsplit u
    if url_parts.scheme = "dir" then
      outDirsLead (if url_parts.path ∉ acc then acc ++ [url_parts.path] else acc) us
    else acc

/-- The inputs scan of `fix_in_files_at_out_dirs` (source lines 1598–1606):
count the leading `dir://` entries and report whether a non-`dir://` entry
follows them. -/
def countLeadingDirs : List String → Nat × Bool
  | [] => (0, false)
  | u :: us =>
    if (urlsplit u).scheme = "dir" then
      let r := countLeadingDirs us
      (r.1 + 1, r.2)
    else (0, true)

/-- `fix_in_files_at_out_dirs` (source lines 1573–1622): remove from the
inputs list every entry past its leading `dir://` block whose path starts
with one of the collected leading output directories; the outputs list is
returned untouched. -/
def fix_in_files_at_out_dirs (inputs_list outputs_list : List String) :
    List String × List String :=
  let directories_list := outDirsLead [] outputs_list
  let c := countLeadingDirs inputs_list
  if ¬c.2 then (inputs_list, outputs_list)
  else
    (eraseIf
      (fun item => directories_list.any fun dir_path =>
        pyStartswith (urlsplit item).path dir_path)
      inputs_list (inputs_list.drop c.1), outputs_list)

example : fix_in_files_at_out_dirs ["file://h/out/sub/file.txt"] ["dir://h/out/"] =
    ([], ["dir://h/out/"]) := by decide
example : fix_in_files_at_out_dirs ["file://h/out/sub/file.txt"]
    ["file://h/z", "dir://h/out/"] =
    (["file://h/out/sub/file.txt"], ["file://h/z", "dir://h/out/"]) := by decide
example : add_manual_datasets_prune ["dir://h/a/", "dir://h/a/b/"] =
    ["dir://h/a/", "dir://h/a/b/"] := by decide
example : add_manual_datasets_prune ["dir://h/a/", "file://h/a/x", "file://h/z"] =
    ["dir://h/a/", "file://h/z"] := by decide

/-! ## Helper lemmas -/

theorem mem_setAdd (v x : String) (s : List String) :
    v ∈ setAdd s x ↔ v ∈ s ∨ v = x := by
  simp only [setAdd]
  split
  next h => exact ⟨Or.inl, fun hv => hv.elim id fun he => he ▸ h⟩
  next h => simp [List.mem_append]

/-! ## C1: per-token policy of the classifier -/

/-- C1.  For every access log line of the form `<uri> <direction>`, the
classifier adds the URI to `inputs` on `IN` or `IN_DELETE` only if the URI
is not already in `outputs`; adds it to `outputs` unconditionally on `OUT`;
and on any other token adds it to `inputs` only if not already in `outputs`
and always adds it to `outputs`. -/
theorem classifyLine_policy (ins outs : List String) (uri d : String) :
    ((d = "IN" ∨ d = "IN_DELETE") →
      (classifyLine (ins, outs) [uri, d]).2 = outs ∧
      ∀ v, v ∈ (classifyLine (ins, outs) [uri, d]).1 ↔ v ∈ ins ∨ (v = uri ∧ uri ∉ outs)) ∧
    (d = "OUT" →
      (classifyLine (ins, outs) [uri, d]).1 = ins ∧
      ∀ v, v ∈ (classifyLine (ins, outs) [uri, d]).2 ↔ v ∈ outs ∨ v = uri) ∧
    (d ≠ "IN" → d ≠ "IN_DELETE" → d ≠ "OUT" →
      (∀ v, v ∈ (classifyLine (ins, outs) [uri, d]).1 ↔ v ∈ ins ∨ (v = uri ∧ uri ∉ outs)) ∧
      (∀ v, v ∈ (classifyLine (ins, outs) [uri, d]).2 ↔ v ∈ outs ∨ v = uri)) := by
  refine ⟨fun hd => ?_, fun hd => ?_, fun h1 h2 h3 => ?_⟩
  · have hne : ¬d = "OUT" := by rcases hd with rfl | rfl <;> decide
    by_cases ho : uri ∈ outs
    · simp [classifyLine, hd, ho, mem_setAdd]
    · simp [classifyLine, hd, ho, mem_setAdd]
  · subst hd
    simp [classifyLine, mem_setAdd]
  · by_cases ho : uri ∈ outs
    · simp [classifyLine, h1, h2, h3, ho, mem_setAdd]
    · simp [classifyLine, h1, h2, h3, ho, mem_setAdd]

/-- Witness for C1 at concrete inputs. -/
theorem classifyLine_policy_witness :
    "a" ∈ (classifyLine ([], ["b"]) ["a", "IN"]).1 ∧
    "a" ∈ (classifyLine ([], ["b"]) ["a", "OUT"]).2 ∧
    "a" ∈ (classifyLine ([], ["b"]) ["a", "INOUT"]).1 := by
  refine ⟨?_, ?_, ?_⟩
  · exact (((classifyLine_policy [] ["b"] "a" "IN").1 (Or.inl rfl)).2 "a").mpr
      (Or.inr ⟨rfl, by decide⟩)
  · exact (((classifyLine_policy [] ["b"] "a" "OUT").2.1 rfl).2 "a").mpr (Or.inr rfl)
  · exact ((((classifyLine_policy [] ["b"] "a" "INOUT").2.2 (by decide) (by decide)
      (by decide)).1) "a").mpr (Or.inr ⟨rfl, by decide⟩)

/-! ## C10: the cross-role fix-up never touches the outputs list -/

/-- C10.  `fix_in_files_at_out_dirs` returns the outputs list unchanged:
only the inputs list can lose entries. -/
theorem fix_in_files_at_out_dirs_preserves_outputs
    (inputs_list outputs_list : List String) :
    (fix_in_files_at_out_dirs inputs_list outputs_list).2 = outputs_list := by
  simp only [fix_in_files_at_out_dirs]
  split <;> rfl

/-! ## C2: the sibling-directories scenario -/

/-- C2 counterexample.  On the sorted list `[/data/x/f1, /data/y/f2]` the
resolver does not return the two prefixes `[/data/x/, /data/y/]` claimed by
the spec scenario. -/
theorem get_common_paths_sibling_files_counterexample :
    get_common_paths ["/data/x/f1", "/data/y/f2"] ≠ some ["/data/x/", "/data/y/"] := by
  decide

/-- C2 amended.  On `[/data/x/f1, /data/y/f2]` the longest-common-path rule
merges the two branches (their common path `/data` is not the root), so the
resolver returns the single prefix `/data/`. -/
theorem get_common_paths_sibling_files :
    get_common_paths ["/data/x/f1", "/data/y/f2"] = some ["/data/"] := by decide

/-! ## C3: inputs/outputs disjointness after classification -/

/-- C3 counterexample.  A URI read (`IN`) and later written (`OUT`) ends up
in both sets, with no `INOUT`-like token anywhere in the log: the classifier
never removes an already-recorded input when the URI is later written. -/
theorem classifyLog_in_then_out_counterexample :
    "A.txt" ∈ (classifyLog ["A.txt IN", "A.txt OUT"]).1 ∧
    "A.txt" ∈ (classifyLog ["A.txt IN", "A.txt OUT"]).2 ∧
    parseLine "A.txt IN" = ["A.txt", "IN"] ∧
    parseLine "A.txt OUT" = ["A.txt", "OUT"] := by decide

/-! ## C4: trailing slashes on the resolver's results -/

/-- C4 (code bug).  With two root-diverging files the normalization loop of
`get_common_paths` mutates the list it iterates over: removing the current
element shifts the next one under the advancing iterator index, so `/b` is
skipped and returned without the trailing separator the code's own comment
("All paths internally need to finish with a '/'") promises. -/
theorem get_common_paths_missing_slash_bug :
    get_common_paths ["/a/f1", "/b/f2"] = some ["/b", "/a/"] ∧
    ("/b" : String).data.getLast? ≠ some '/' := by decide

/-! ## C5: canonicalization of dir:// entries in process_accessed_files -/

/-- C5 (code bug).  With two `dir://` inputs the fix-up loop of
`process_accessed_files` suffers the same iterator-shift: `dir://h/b` is
never rewritten (it keeps no trailing slash), and the rewritten first entry
is processed a second time, gaining a double slash. -/
theorem process_accessed_files_unfixed_dir_bug :
    process_accessed_files "h" ["dir://h/a IN", "dir://h/b IN"] =
      (["dir://h/a//", "dir://h/b"], []) ∧
    (urlsplit "dir://h/b").scheme = "dir" ∧
    ("dir://h/b" : String).data.getLast? ≠ some '/' := by decide

/-! ## C7: the cross-role fix-up, original claim counterexample -/

/-- C7 counterexample.  A `dir://` output listed after a non-`dir://` output
is never registered (the registration loop breaks at the first non-directory
entry), so a file input lying under it is not removed, although the claim
requires removal for every dir-scheme entry of the outputs list. -/
theorem fix_in_files_at_out_dirs_counterexample :
    fix_in_files_at_out_dirs ["file://h/out/sub/file.txt"]
        ["file://h/z", "dir://h/out/"] =
      (["file://h/out/sub/file.txt"], ["file://h/z", "dir://h/out/"]) ∧
    (urlsplit "dir://h/out/").scheme = "dir" ∧
    (urlsplit "file://h/out/sub/file.txt").scheme = "file" ∧
    pyStartswith (urlsplit "file://h/out/sub/file.txt").path
      (urlsplit "dir://h/out/").path = true := by decide

/-! ## C8: the dataset pruning pass, original claim counterexample -/

/-- C8 counterexample.  On a sorted list consisting solely of directories
(`dir://h/a/`, `dir://h/a/b/`) no file entry is found, the pruning loop is
skipped entirely, and the nested directory — a strict extension of the
collected topmost prefix `/a/` — is kept, although the claim requires every
such entry to be removed. -/
theorem add_manual_datasets_prune_counterexample :
    add_manual_datasets_prune ["dir://h/a/", "dir://h/a/b/"] =
      ["dir://h/a/", "dir://h/a/b/"] ∧
    (collectTopDirs [] ["dir://h/a/", "dir://h/a/b/"]).1 = ["/a/"] ∧
    (urlsplit "dir://h/a/b/").path = "/a/b/" ∧
    pyStartswith "/a/b/" "/a/" = true ∧ ("/a/b/" : String) ≠ "/a/" ∧
    lexLe ("dir://h/a/" : String).data ("dir://h/a/b/" : String).data = true := by decide

/-! ## C9: idempotence of the Path Normalizer -/

theorem strAppend_data (a b : String) : (a ++ b).data = a.data ++ b.data := rfl

theorem strAppend_assoc (a b c : String) : a ++ b ++ c = a ++ (b ++ c) := by
  cases a; cases b; cases c
  exact congrArg String.mk (List.append_assoc _ _ _)

/-- Whatever follows it, a URL starting with `file://` has scheme `file`:
the scan for the first `':'` stops right after `file`. -/
theorem urlsplit_file_scheme (t : String) : (urlsplit ("file://" ++ t)).scheme = "file" := rfl

/-- `fix_dir_url` leaves any `file://…` URL unchanged. -/
theorem fix_dir_url_of_file (t : String) : fix_dir_url ("file://" ++ t) = "file://" ++ t := by
  have h := urlsplit_file_scheme t
  simp only [fix_dir_url, h]
  simp

/-- C9.  Applying the Path Normalizer `fix_dir_url` twice yields the same
result as applying it once, for every URI string. -/
theorem fix_dir_url_idempotent (url : String) :
    fix_dir_url (fix_dir_url url) = fix_dir_url url := by
  by_cases h : (urlsplit url).scheme = "dir"
  · have hA : fix_dir_url url =
        "file://" ++ ((urlsplit url).netloc ++ (urlsplit url).path) ∨
        fix_dir_url url =
          "file://" ++ ((urlsplit url).netloc ++ (urlsplit url).path ++ "/") := by
      simp only [fix_dir_url, if_pos h]
      split
      · right
        rw [strAppend_assoc, strAppend_assoc, strAppend_assoc]
      · left
        rw [strAppend_assoc]
    rcases hA with h1 | h1 <;> rw [h1, fix_dir_url_of_file]
  · have hu : fix_dir_url url = url := by simp only [fix_dir_url, if_neg h]
    rw [hu, hu]

/-! ## Counting through the removal loops -/

/-- Ascending sortedness under Python's string order (used to state the
"sorted list" precondition the claims carry). -/
def pySortedB : List String → Bool
  | [] => true
  | [_] => true
  | a :: b :: rest => lexLe a.data b.data && pySortedB (b :: rest)

theorem eraseIf_cons (cond : String → Bool) (l : List String) (it : String)
    (its : List String) :
    eraseIf cond l (it :: its) = eraseIf cond (if cond it then l.erase it else l) its := rfl

theorem count_eraseIf_of_cond (cond : String → Bool) (X : String) (hX : cond X = true) :
    ∀ (items l : List String), (eraseIf cond l items).count X = l.count X - items.count X := by
  intro items
  induction items with
  | nil => intro l; simp [eraseIf]
  | cons it its ih =>
    intro l
    rw [eraseIf_cons]
    by_cases hit : it = X
    · subst hit
      rw [if_pos hX, ih, List.count_erase_self, List.count_cons_self]
      omega
    · have hpres : (if cond it then l.erase it else l).count X = l.count X := by
        split
        · exact List.count_erase_of_ne (Ne.symm hit) l
        · rfl
      rw [ih, hpres, List.count_cons_of_ne (Ne.symm hit)]

theorem count_eraseIf_of_not_cond (cond : String → Bool) (X : String) (hX : cond X = false) :
    ∀ (items l : List String), (eraseIf cond l items).count X = l.count X := by
  intro items
  induction items with
  | nil => intro l; simp [eraseIf]
  | cons it its ih =>
    intro l
    rw [eraseIf_cons]
    by_cases hit : it = X
    · subst hit
      rw [hX]
      exact ih l
    · have hpres : (if cond it then l.erase it else l).count X = l.count X := by
        split
        · exact List.count_erase_of_ne (Ne.symm hit) l
        · rfl
      rw [ih, hpres]

theorem eraseIf_nop (cond : String → Bool) :
    ∀ (items l : List String), (∀ it ∈ items, cond it = false) → eraseIf cond l items = l := by
  intro items
  induction items with
  | nil => intro l _; rfl
  | cons it its ih =>
    intro l h
    rw [eraseIf_cons, h it (List.mem_cons_self it its)]
    exact ih l fun x hx => h x (List.mem_cons_of_mem it hx)

/-! ## C7: the cross-role fix-up, amended claim -/

theorem countLeadingDirs_take (l : List String) :
    ∀ x ∈ l.take (countLeadingDirs l).1, (urlsplit x).scheme = "dir" := by
  induction l with
  | nil => simp
  | cons u us ih =>
    by_cases hu : (urlsplit u).scheme = "dir"
    · simp only [countLeadingDirs, if_pos hu, List.take_succ_cons]
      intro x hx
      rcases List.mem_cons.mp hx with rfl | hx
      · exact hu
      · exact ih x hx
    · simp [countLeadingDirs, hu]

theorem countLeadingDirs_found (l : List String) (x : String) (hx : x ∈ l)
    (hs : (urlsplit x).scheme ≠ "dir") : (countLeadingDirs l).2 = true := by
  induction l with
  | nil => cases hx
  | cons u us ih =>
    by_cases hu : (urlsplit u).scheme = "dir"
    · have hxs : x ∈ us := by
        rcases List.mem_cons.mp hx with rfl | hxs
        · exact absurd hu hs
        · exact hxs
      simp only [countLeadingDirs, if_pos hu]
      exact ih hxs
    · simp [countLeadingDirs, hu]

theorem countLeadingDirs_all_dir (l : List String)
    (h : ∀ x ∈ l, (urlsplit x).scheme = "dir") : (countLeadingDirs l).2 = false := by
  induction l with
  | nil => rfl
  | cons u us ih =>
    simp only [countLeadingDirs, if_pos (h u (List.mem_cons_self u us))]
    exact ih fun x hx => h x (List.mem_cons_of_mem u hx)

theorem outDirsLead_of_no_dir (l : List String) (acc : List String)
    (h : ∀ x ∈ l, (urlsplit x).scheme ≠ "dir") : outDirsLead acc l = acc := by
  cases l with
  | nil => rfl
  | cons u us => simp [outDirsLead, h u (List.mem_cons_self u us)]

/-- C7 amended.  The cross-role fix-up removes from the inputs list every
file-scheme entry whose path falls under a directory path in the leading
block of dir-scheme entries of the outputs list (for a sorted outputs list
that block holds every dir-scheme output, so this is the claim's
"registered" directory); when the inputs contain no file or the outputs
contain no directory, both lists are returned as they are. -/
theorem fix_in_files_at_out_dirs_spec (inputs_list outputs_list : List String) :
    (∀ u ∈ inputs_list, (urlsplit u).scheme = "file" →
      (∃ d ∈ outDirsLead [] outputs_list, pyStartswith (urlsplit u).path d = true) →
      u ∉ (fix_in_files_at_out_dirs inputs_list outputs_list).1) ∧
    ((∀ u ∈ inputs_list, (urlsplit u).scheme = "dir") →
      fix_in_files_at_out_dirs inputs_list outputs_list = (inputs_list, outputs_list)) ∧
    ((∀ u ∈ outputs_list, (urlsplit u).scheme ≠ "dir") →
      fix_in_files_at_out_dirs inputs_list outputs_list = (inputs_list, outputs_list)) := by
  refine ⟨fun u hu hfile hnest => ?_, fun hall => ?_, fun hnd => ?_⟩
  · have hff : (countLeadingDirs inputs_list).2 = true :=
      countLeadingDirs_found _ u hu (by rw [hfile]; decide)
    have hcond : (fun item => (outDirsLead [] outputs_list).any fun dir_path =>
        pyStartswith (urlsplit item).path dir_path) u = true := by
      rcases hnest with ⟨d, hd, hsw⟩
      simp only [List.any_eq_true]
      exact ⟨d, hd, hsw⟩
    have htake : (inputs_list.take (countLeadingDirs inputs_list).1).count u = 0 := by
      rw [List.count_eq_zero]
      intro hmem
      have := countLeadingDirs_take inputs_list u hmem
      rw [hfile] at this
      exact absurd this (by decide)
    have hsplit : (inputs_list.drop (countLeadingDirs inputs_list).1).count u =
        inputs_list.count u := by
      conv_rhs => rw [← List.take_append_drop (countLeadingDirs inputs_list).1 inputs_list]
      rw [List.count_append, htake]
      omega
    have hz := count_eraseIf_of_cond
      (fun item => (outDirsLead [] outputs_list).any fun dir_path =>
        pyStartswith (urlsplit item).path dir_path) u hcond
      (inputs_list.drop (countLeadingDirs inputs_list).1) inputs_list
    rw [hsplit, Nat.sub_self] at hz
    simp only [fix_in_files_at_out_dirs, hff]
    simpa using List.count_eq_zero.mp hz
  · have hff := countLeadingDirs_all_dir _ hall
    simp [fix_in_files_at_out_dirs, hff]
  · have hd0 : outDirsLead [] outputs_list = [] := outDirsLead_of_no_dir _ _ hnd
    simp only [fix_in_files_at_out_dirs, hd0]
    split
    · rfl
    · rw [eraseIf_nop]
      simp

/-- Witness for C7's amended theorem at the spec scenario. -/
theorem fix_in_files_at_out_dirs_spec_witness :
    "file://h/out/sub/file.txt" ∉
      (fix_in_files_at_out_dirs ["file://h/out/sub/file.txt"] ["dir://h/out/"]).1 :=
  (fix_in_files_at_out_dirs_spec ["file://h/out/sub/file.txt"] ["dir://h/out/"]).1
    "file://h/out/sub/file.txt" (by decide) (by decide) ⟨"/out/", by decide, by decide⟩

/-! ## C8: the dataset pruning pass, amended claim -/

theorem collectTopDirs_found (l : List String) (x : String) (hx : x ∈ l)
    (hs : (urlsplit x).scheme ≠ "dir") :
    ∀ acc, (collectTopDirs acc l).2 = true := by
  induction l with
  | nil => cases hx
  | cons u us ih =>
    intro acc
    by_cases hu : (urlsplit u).scheme = "dir"
    · have hxs : x ∈ us := by
        rcases List.mem_cons.mp hx with rfl | hxs
        · exact absurd hu hs
        · exact hxs
      simp only [collectTopDirs, if_pos hu]
      exact ih hxs _
    · simp [collectTopDirs, hu]

/-- C8 amended.  On a merged, sorted dataset list that contains at least one
non-directory entry and whose collected topmost directory paths are pairwise
non-nested (true in particular for sorted single-host lists), the pruning
removes every entry whose path is a strict extension of a collected topmost
directory and keeps the entries whose paths seeded the collection. -/
theorem add_manual_datasets_prune_spec (data_list : List String)
    (_hsorted : pySortedB data_list = true)
    (hfile : ∃ u ∈ data_list, (urlsplit u).scheme ≠ "dir")
    (hflat : ∀ a ∈ (collectTopDirs [] data_list).1, ∀ b ∈ (collectTopDirs [] data_list).1,
      pyStartswith a b = true → a = b) :
    (∀ item, (∃ d ∈ (collectTopDirs [] data_list).1,
        (urlsplit item).path ≠ d ∧ pyStartswith (urlsplit item).path d = true) →
      item ∉ add_manual_datasets_prune data_list) ∧
    (∀ item ∈ data_list, (urlsplit item).path ∈ (collectTopDirs [] data_list).1 →
      item ∈ add_manual_datasets_prune data_list) := by
  obtain ⟨w, hw, hws⟩ := hfile
  have hff : (collectTopDirs [] data_list).2 = true := collectTopDirs_found _ w hw hws []
  constructor
  · intro item hnest
    have hcond : (fun it => (collectTopDirs [] data_list).1.any fun dir_path =>
        !((urlsplit it).path == dir_path) && pyStartswith (urlsplit it).path dir_path)
          item = true := by
      rcases hnest with ⟨d, hd, hne, hsw⟩
      simp only [List.any_eq_true, Bool.and_eq_true, Bool.not_eq_eq_eq_not, Bool.not_true,
        beq_eq_false_iff_ne, ne_eq]
      exact ⟨d, hd, hne, hsw⟩
    have hz := count_eraseIf_of_cond
      (fun it => (collectTopDirs [] data_list).1.any fun dir_path =>
        !((urlsplit it).path == dir_path) && pyStartswith (urlsplit it).path dir_path)
      item hcond data_list data_list
    rw [Nat.sub_self] at hz
    simp only [add_manual_datasets_prune, hff, if_true]
    simpa using List.count_eq_zero.mp hz
  · intro item hmem hseed
    have hcond : (fun it => (collectTopDirs [] data_list).1.any fun dir_path =>
        !((urlsplit it).path == dir_path) && pyStartswith (urlsplit it).path dir_path)
          item = false := by
      have hnot : ¬((fun it => (collectTopDirs [] data_list).1.any fun dir_path =>
          !((urlsplit it).path == dir_path) && pyStartswith (urlsplit it).path dir_path)
            item = true) := by
        intro hc
        simp only [List.any_eq_true, Bool.and_eq_true, Bool.not_eq_eq_eq_not, Bool.not_true,
          beq_eq_false_iff_ne, ne_eq] at hc
        rcases hc with ⟨d, hd, hne, hsw⟩
        exact hne (hflat _ hseed d hd hsw)
      exact Bool.not_eq_true _ ▸ hnot
    have hk := count_eraseIf_of_not_cond
      (fun it => (collectTopDirs [] data_list).1.any fun dir_path =>
        !((urlsplit it).path == dir_path) && pyStartswith (urlsplit it).path dir_path)
      item hcond data_list data_list
    simp only [add_manual_datasets_prune, hff, if_true]
    rw [← List.count_pos_iff] at hmem ⊢
    rw [hk]
    exact hmem

/-- Witness for C8's amended theorem at concrete inputs. -/
theorem add_manual_datasets_prune_spec_witness :
    "file://h/a/x" ∉ add_manual_datasets_prune ["dir://h/a/", "file://h/a/x", "file://h/z"] ∧
    "dir://h/a/" ∈ add_manual_datasets_prune ["dir://h/a/", "file://h/a/x", "file://h/z"] := by
  have h := add_manual_datasets_prune_spec ["dir://h/a/", "file://h/a/x", "file://h/z"]
    (by decide) ⟨"file://h/a/x", by decide, by decide⟩ (by decide)
  exact ⟨h.1 "file://h/a/x" ⟨"/a/", by decide, by decide, by decide⟩,
    h.2 "dir://h/a/" (by decide) (by decide)⟩

/-! ## C3: when can a URI end up in both sets? -/

/-- Membership in the inputs set after one classification step: the URI was
already there, or this record is `[u, d]` with an input-adding token
(anything but `OUT`) and `u` not yet an output. -/
theorem classifyLine_mem_fst (st : List String × List String) (r : List String) (u : String) :
    u ∈ (classifyLine st r).1 ↔
      u ∈ st.1 ∨ ∃ d, r = [u, d] ∧ d ≠ "OUT" ∧ u ∉ st.2 := by
  rcases r with _ | ⟨a, _ | ⟨b, _ | ⟨c, r⟩⟩⟩
  · simp [classifyLine]
  · simp [classifyLine]
  · by_cases hb1 : b = "IN" ∨ b = "IN_DELETE"
    · have hbo : ¬b = "OUT" := by rcases hb1 with rfl | rfl <;> decide
      by_cases ha : a ∈ st.2
      · simp only [classifyLine, if_pos hb1, if_neg (not_not_intro ha)]
        constructor
        · exact Or.inl
        · rintro (h | ⟨d, hd, -, hu⟩)
          · exact h
          · obtain ⟨rfl, rfl⟩ : a = u ∧ b = d := by simpa using hd
            exact absurd ha hu
      · simp only [classifyLine, if_pos hb1, if_pos ha, mem_setAdd]
        constructor
        · rintro (h | rfl)
          · exact Or.inl h
          · exact Or.inr ⟨b, rfl, hbo, ha⟩
        · rintro (h | ⟨d, hd, -, -⟩)
          · exact Or.inl h
          · obtain ⟨rfl, rfl⟩ : a = u ∧ b = d := by simpa using hd
            exact Or.inr rfl
    · by_cases hb2 : b = "OUT"
      · subst hb2
        simp only [classifyLine, if_neg hb1, if_pos rfl]
        constructor
        · exact Or.inl
        · rintro (h | ⟨d, hd, hdo, -⟩)
          · exact h
          · obtain ⟨rfl, rfl⟩ : a = u ∧ "OUT" = d := by simpa using hd
            exact absurd rfl hdo
      · by_cases ha : a ∈ st.2
        · simp only [classifyLine, if_neg hb1, if_neg hb2, if_neg (not_not_intro ha)]
          constructor
          · exact Or.inl
          · rintro (h | ⟨d, hd, -, hu⟩)
            · exact h
            · obtain ⟨rfl, rfl⟩ : a = u ∧ b = d := by simpa using hd
              exact absurd ha hu
        · simp only [classifyLine, if_neg hb1, if_neg hb2, if_pos ha, mem_setAdd]
          constructor
          · rintro (h | rfl)
            · exact Or.inl h
            · exact Or.inr ⟨b, rfl, hb2, ha⟩
          · rintro (h | ⟨d, hd, -, -⟩)
            · exact Or.inl h
            · obtain ⟨rfl, rfl⟩ : a = u ∧ b = d := by simpa using hd
              exact Or.inr rfl
  · simp [classifyLine]

/-- Membership in the outputs set after one classification step: the URI was
already there, or this record is `[u, d]` with an output-adding token
(anything but `IN`/`IN_DELETE`). -/
theorem classifyLine_mem_snd (st : List String × List String) (r : List String) (u : String) :
    u ∈ (classifyLine st r).2 ↔
      u ∈ st.2 ∨ ∃ d, r = [u, d] ∧ d ≠ "IN" ∧ d ≠ "IN_DELETE" := by
  rcases r with _ | ⟨a, _ | ⟨b, _ | ⟨c, r⟩⟩⟩
  · simp [classifyLine]
  · simp [classifyLine]
  · by_cases hb1 : b = "IN" ∨ b = "IN_DELETE"
    · have hsnd : (classifyLine st [a, b]).2 = st.2 := by
        simp only [classifyLine, if_pos hb1]
        split <;> rfl
      rw [hsnd]
      constructor
      · exact Or.inl
      · rintro (h | ⟨d, hd, hd1, hd2⟩)
        · exact h
        · obtain ⟨rfl, rfl⟩ : a = u ∧ b = d := by simpa using hd
          rcases hb1 with rfl | rfl
          · exact absurd rfl hd1
          · exact absurd rfl hd2
    · have hb1' : ¬b = "IN" ∧ ¬b = "IN_DELETE" := by
        constructor <;> intro h <;> exact hb1 (by simp [h])
      have hsnd : (classifyLine st [a, b]).2 = setAdd st.2 a := by
        by_cases hb2 : b = "OUT"
        · simp [classifyLine, hb1, hb2]
        · simp [classifyLine, hb1, hb2]
      rw [hsnd, mem_setAdd]
      constructor
      · rintro (h | rfl)
        · exact Or.inl h
        · exact Or.inr ⟨b, rfl, hb1'.1, hb1'.2⟩
      · rintro (h | ⟨d, hd, -, -⟩)
        · exact Or.inl h
        · obtain ⟨rfl, rfl⟩ : a = u ∧ b = d := by simpa using hd
          exact Or.inr rfl
  · simp [classifyLine]

/-- The classification fold, started in an arbitrary state: a URI found in
both result sets was in both sets already, or was an input before this
segment and some record writes it, or appears with an `INOUT`-class token,
or appears with `IN`/`IN_DELETE` strictly before an `OUT` appearance. -/
theorem classifyFold_both_mem (u : String) :
    ∀ (lines : List String) (st : List String × List String),
    u ∈ (lines.foldl (fun st line => classifyLine st (parseLine line)) st).1 →
    u ∈ (lines.foldl (fun st line => classifyLine st (parseLine line)) st).2 →
    (u ∈ st.1 ∧ u ∈ st.2) ∨
    (u ∈ st.1 ∧ ∃ line ∈ lines, ∃ d, parseLine line = [u, d] ∧
      d ≠ "IN" ∧ d ≠ "IN_DELETE") ∨
    (∃ line ∈ lines, ∃ d, parseLine line = [u, d] ∧
      d ≠ "IN" ∧ d ≠ "IN_DELETE" ∧ d ≠ "OUT") ∨
    (∃ l₁ l₂, lines = l₁ ++ l₂ ∧
      (∃ line ∈ l₁, parseLine line = [u, "IN"] ∨ parseLine line = [u, "IN_DELETE"]) ∧
      (∃ line ∈ l₂, parseLine line = [u, "OUT"])) := by
  intro lines
  induction lines with
  | nil => exact fun st h1 h2 => Or.inl ⟨h1, h2⟩
  | cons ln rest ih =>
    intro st h1 h2
    rw [List.foldl_cons] at h1 h2
    rcases ih (classifyLine st (parseLine ln)) h1 h2 with ⟨ha1, ha2⟩ | ⟨hb1, hb2⟩ | hc | hd
    · rcases (classifyLine_mem_fst st (parseLine ln) u).mp ha1 with h1s | ⟨d, hpd, hdo, hu2⟩
      · rcases (classifyLine_mem_snd st (parseLine ln) u).mp ha2 with h2s | ⟨d, hpd, hd1, hd2⟩
        · exact Or.inl ⟨h1s, h2s⟩
        · exact Or.inr (Or.inl ⟨h1s, ln, List.mem_cons_self ln rest, d, hpd, hd1, hd2⟩)
      · rcases (classifyLine_mem_snd st (parseLine ln) u).mp ha2 with h2s | ⟨d', hpd', hd1, hd2⟩
        · exact absurd h2s hu2
        · have hdd : d = d' := by
            have := hpd.symm.trans hpd'
            simpa using this
          subst hdd
          exact Or.inr (Or.inr (Or.inl
            ⟨ln, List.mem_cons_self ln rest, d, hpd, hd1, hd2, hdo⟩))
    · rcases (classifyLine_mem_fst st (parseLine ln) u).mp hb1 with h1s | ⟨d, hpd, hdo, hu2⟩
      · rcases hb2 with ⟨line, hline, hrest⟩
        exact Or.inr (Or.inl ⟨h1s, line, List.mem_cons_of_mem ln hline, hrest⟩)
      · by_cases hdin : d = "IN" ∨ d = "IN_DELETE"
        · rcases hb2 with ⟨line', hline', d', hpd', hd1', hd2'⟩
          by_cases hdo' : d' = "OUT"
          · subst hdo'
            refine Or.inr (Or.inr (Or.inr ⟨[ln], rest, rfl,
              ⟨ln, List.mem_cons_self ln [], ?_⟩, ⟨line', hline', hpd'⟩⟩))
            rcases hdin with rfl | rfl
            · exact Or.inl hpd
            · exact Or.inr hpd
          · exact Or.inr (Or.inr (Or.inl
              ⟨line', List.mem_cons_of_mem ln hline', d', hpd', hd1', hd2', hdo'⟩))
        · rw [not_or] at hdin
          exact Or.inr (Or.inr (Or.inl
            ⟨ln, List.mem_cons_self ln rest, d, hpd, hdin.1, hdin.2, hdo⟩))
    · rcases hc with ⟨line, hline, hrest⟩
      exact Or.inr (Or.inr (Or.inl ⟨line, List.mem_cons_of_mem ln hline, hrest⟩))
    · rcases hd with ⟨l₁, l₂, heq, hin, hout⟩
      refine Or.inr (Or.inr (Or.inr ⟨ln :: l₁, l₂, by simp [heq], ?_, hout⟩))
      rcases hin with ⟨line, hline, hp⟩
      exact ⟨line, List.mem_cons_of_mem ln hline, hp⟩

/-- C3 amended.  For a log whose two-field records carry only the documented
direction tokens, a URI in both the inputs set and the outputs set after
classification appeared with an `INOUT`-like token (`INOUT`, `COMMUTATIVE`,
or `CONCURRENT`), or appeared with `IN`/`IN_DELETE` strictly before a later
`OUT` appearance (a file read before being overwritten, which the
classifier never removes from `inputs`). -/
theorem classifyLog_both_mem_iff_inout_or_in_before_out (lines : List String)
    (henum : ∀ line ∈ lines, (parseLine line).length = 2 →
      ∀ d ∈ (parseLine line).tail,
        d = "IN" ∨ d = "OUT" ∨ d = "INOUT" ∨ d = "IN_DELETE" ∨
        d = "COMMUTATIVE" ∨ d = "CONCURRENT")
    (u : String) (h1 : u ∈ (classifyLog lines).1) (h2 : u ∈ (classifyLog lines).2) :
    (∃ line ∈ lines, ∃ d, parseLine line = [u, d] ∧
      (d = "INOUT" ∨ d = "COMMUTATIVE" ∨ d = "CONCURRENT")) ∨
    (∃ l₁ l₂, lines = l₁ ++ l₂ ∧
      (∃ line ∈ l₁, parseLine line = [u, "IN"] ∨ parseLine line = [u, "IN_DELETE"]) ∧
      (∃ line ∈ l₂, parseLine line = [u, "OUT"])) := by
  rcases classifyFold_both_mem u lines ([], []) h1 h2 with ⟨h, -⟩ | ⟨h, -⟩ | hc | hd
  · simp at h
  · simp at h
  · rcases hc with ⟨line, hline, d, hpd, hd1, hd2, hd3⟩
    have hen := henum line hline (by rw [hpd]; rfl) d (by rw [hpd]; simp)
    refine Or.inl ⟨line, hline, d, hpd, ?_⟩
    rcases hen with rfl | rfl | rfl | rfl | rfl | rfl
    · exact absurd rfl hd1
    · exact absurd rfl hd3
    · exact Or.inl rfl
    · exact absurd rfl hd2
    · exact Or.inr (Or.inl rfl)
    · exact Or.inr (Or.inr rfl)
  · exact Or.inr hd

/-- Witness for C3's amended theorem at a concrete log. -/
theorem classifyLog_both_mem_witness :
    (∃ line ∈ ["a.txt IN", "a.txt INOUT"], ∃ d, parseLine line = ["a.txt", d] ∧
      (d = "INOUT" ∨ d = "COMMUTATIVE" ∨ d = "CONCURRENT")) ∨
    (∃ l₁ l₂, ["a.txt IN", "a.txt INOUT"] = l₁ ++ l₂ ∧
      (∃ line ∈ l₁, parseLine line = ["a.txt", "IN"] ∨
        parseLine line = ["a.txt", "IN_DELETE"]) ∧
      (∃ line ∈ l₂, parseLine line = ["a.txt", "OUT"])) :=
  classifyLog_both_mem_iff_inout_or_in_before_out ["a.txt IN", "a.txt INOUT"]
    (by decide) "a.txt" (by decide) (by decide)

/-! ## C6: files sharing one directory -/

/-- A well-formed path component: nonempty, not `"."`, no separator. -/
def cleanComp (c : List Char) : Prop := c ≠ [] ∧ c ≠ ['.'] ∧ '/' ∉ c

instance (c : List Char) : Decidable (cleanComp c) := by
  unfold cleanComp; infer_instance

/-- The string form of the absolute directory with the given components
(`"/"` when there are none). -/
def dirStr (comps : List (List Char)) : String :=
  String.mk ('/' :: joinChar '/' comps)

/-- The string form of the path of a file called `name` lying directly in
the directory `dirStr comps`. -/
def fileInDir (comps : List (List Char)) (name : List Char) : String :=
  String.mk ('/' :: joinChar '/' (comps ++ [name]))

example : dirStr [] = "/" := by decide
example : dirStr [['d', 'a', 't', 'a']] = "/data" := by decide
example : fileInDir [['d', 'a', 't', 'a']] ['f', '1'] = "/data/f1" := by decide
example : fileInDir [] ['f', '1'] = "/f1" := by decide

theorem splitChar_ne_nil (sep : Char) : ∀ l, splitChar sep l ≠ []
  | [] => by simp [splitChar]
  | c :: cs => by
    by_cases hc : c = sep
    · simp [splitChar, hc]
    · cases hsc : splitChar sep cs with
      | nil => exact absurd hsc (splitChar_ne_nil sep cs)
      | cons h t => simp [splitChar, hc, hsc]

theorem splitChar_append (sep : Char) :
    ∀ xs ys, splitChar sep (xs ++ sep :: ys) = splitChar sep xs ++ splitChar sep ys := by
  intro xs ys
  induction xs with
  | nil => simp [splitChar]
  | cons c xs ih =>
    by_cases hc : c = sep
    · simp [splitChar, hc, ih]
    · obtain ⟨h, t, hht⟩ : ∃ h t, splitChar sep xs = h :: t := by
        cases hsc : splitChar sep xs with
        | nil => exact absurd hsc (splitChar_ne_nil sep xs)
        | cons h t => exact ⟨h, t, rfl⟩
      simp [splitChar, hc, ih, hht]

theorem splitChar_no_sep (sep : Char) : ∀ xs, sep ∉ xs → splitChar sep xs = [xs] := by
  intro xs
  induction xs with
  | nil => intro _; rfl
  | cons c cs ih =>
    intro h
    have hc : ¬c = sep := fun he => h (he ▸ List.mem_cons_self c cs)
    have hcs : sep ∉ cs := fun hm => h (List.mem_cons_of_mem c hm)
    simp [splitChar, hc, ih hcs]

theorem splitChar_join (sep : Char) :
    ∀ cs : List (List Char), cs ≠ [] → (∀ c ∈ cs, sep ∉ c) →
      splitChar sep (joinChar sep cs) = cs := by
  intro cs
  induction cs with
  | nil => intro h _; exact absurd rfl h
  | cons c rest ih =>
    intro _ hns
    cases rest with
    | nil => exact splitChar_no_sep sep c (hns c (List.mem_cons_self c []))
    | cons d ds =>
      have hjoin : joinChar sep (c :: d :: ds) = c ++ sep :: joinChar sep (d :: ds) := rfl
      rw [hjoin, splitChar_append,
        splitChar_no_sep sep c (hns c (List.mem_cons_self c (d :: ds))),
        ih (by simp) fun x hx => hns x (List.mem_cons_of_mem c hx)]
      rfl

theorem pyPathComps_clean_cons (cs : List (List Char)) (hc : ∀ c ∈ cs, cleanComp c) :
    List.filter (fun c => ¬(c = [] ∨ c = ['.'])) cs = cs := by
  rw [List.filter_eq_self]
  intro a ha
  rcases hc a ha with ⟨h1, h2, -⟩
  simp [h1, h2]

theorem pyPathComps_slash_join (cs : List (List Char)) (hne : cs ≠ [])
    (hc : ∀ c ∈ cs, cleanComp c) :
    pyPathComps ('/' :: joinChar '/' cs) = cs := by
  have h1 : splitChar '/' ('/' :: joinChar '/' cs) = [] :: splitChar '/' (joinChar '/' cs) := by
    simp [splitChar]
  have h2 : splitChar '/' (joinChar '/' cs) = cs :=
    splitChar_join '/' cs hne fun c hcm => (hc c hcm).2.2
  simp only [pyPathComps, h1, h2]
  rw [List.filter_cons_of_neg (by decide)]
  exact pyPathComps_clean_cons cs hc

theorem pyPathComps_fileInDir (comps : List (List Char)) (name : List Char)
    (hc : ∀ c ∈ comps, cleanComp c) (hn : cleanComp name) :
    pyPathComps (fileInDir comps name).data = comps ++ [name] := by
  have hdata : (fileInDir comps name).data = '/' :: joinChar '/' (comps ++ [name]) := rfl
  rw [hdata]
  exact pyPathComps_slash_join (comps ++ [name]) (by simp) (by
    intro c hcm
    rcases List.mem_append.mp hcm with h | h
    · exact hc c h
    · rw [List.mem_singleton.mp h]; exact hn)

theorem pyPathComps_dirStr (comps : List (List Char)) (hc : ∀ c ∈ comps, cleanComp c) :
    pyPathComps (dirStr comps).data = comps := by
  cases comps with
  | nil => decide
  | cons c cs =>
    exact pyPathComps_slash_join (c :: cs) (by simp) hc

theorem joinChar_cons_exists (sep : Char) (c : List Char) (rest : List (List Char)) :
    ∃ t, joinChar sep (c :: rest) = c ++ t := by
  cases rest with
  | nil => exact ⟨[], by simp [joinChar]⟩
  | cons d ds => exact ⟨sep :: joinChar sep (d :: ds), rfl⟩

theorem posixRootOf_slash_join (cs : List (List Char)) (hne : cs ≠ [])
    (hc : ∀ c ∈ cs, cleanComp c) :
    posixRootOf ('/' :: joinChar '/' cs) = ['/'] := by
  obtain ⟨k, rest, rfl⟩ := List.exists_cons_of_ne_nil hne
  obtain ⟨t, ht⟩ := joinChar_cons_exists '/' k rest
  obtain ⟨ch, k', rfl⟩ := List.exists_cons_of_ne_nil (hc k (List.mem_cons_self k rest)).1
  have hch : ch ≠ '/' := by
    intro he
    exact (hc _ (List.mem_cons_self _ rest)).2.2 (he ▸ List.mem_cons_self ch k')
  rw [ht]
  simp [posixRootOf, hch]

theorem pyParent_fileInDir (comps : List (List Char)) (name : List Char)
    (hc : ∀ c ∈ comps, cleanComp c) (hn : cleanComp name) :
    pyParent (fileInDir comps name) = some (dirStr comps) := by
  have hclean : ∀ c ∈ comps ++ [name], cleanComp c := by
    intro c hcm
    rcases List.mem_append.mp hcm with h | h
    · exact hc c h
    · rw [List.mem_singleton.mp h]; exact hn
  have hdata : (fileInDir comps name).data = '/' :: joinChar '/' (comps ++ [name]) := rfl
  have hroot : posixRootOf (fileInDir comps name).data = ['/'] := by
    rw [hdata]
    exact posixRootOf_slash_join (comps ++ [name]) (by simp) hclean
  have hparts : pyPathComps (fileInDir comps name).data = comps ++ [name] :=
    pyPathComps_fileInDir comps name hc hn
  simp only [pyParent, hroot, hparts]
  rw [if_neg (by simp), if_neg (by simp), List.dropLast_concat]
  rfl

theorem commonPrefixL_append_left :
    ∀ (xs ys : List (List Char)), commonPrefixL (xs ++ ys) xs = xs := by
  intro xs ys
  induction xs with
  | nil =>
    cases ys with
    | nil => rfl
    | cons y ys => rfl
  | cons x xs ih => simp [commonPrefixL, ih]

theorem commonpath2_fileInDir_dirStr (comps : List (List Char)) (name : List Char)
    (hc : ∀ c ∈ comps, cleanComp c) (hn : cleanComp name) :
    commonpath2 (fileInDir comps name) (dirStr comps) = some (dirStr comps) := by
  have hp : (fileInDir comps name).data.head? = some '/' := rfl
  have hq : (dirStr comps).data.head? = some '/' := rfl
  simp only [commonpath2, hp, hq, pyPathComps_fileInDir comps name hc hn,
    pyPathComps_dirStr comps hc, commonPrefixL_append_left]
  simp [dirStr]

theorem dirStr_nil : dirStr [] = "/" := by decide

theorem dirStr_ne_root (comps : List (List Char)) (hne : comps ≠ [])
    (hc : ∀ c ∈ comps, cleanComp c) : dirStr comps ≠ "/" := by
  intro h
  have hd : ('/' :: joinChar '/' comps) = ['/'] := congrArg String.data h
  have hj : joinChar '/' comps = [] := by simpa using hd
  obtain ⟨k, rest, rfl⟩ := List.exists_cons_of_ne_nil hne
  obtain ⟨t, ht⟩ := joinChar_cons_exists '/' k rest
  obtain ⟨ch, k', rfl⟩ := List.exists_cons_of_ne_nil (hc k (List.mem_cons_self k rest)).1
  rw [ht] at hj
  simp at hj

theorem commonPrefixL_nil_right (l : List (List Char)) : commonPrefixL l [] = [] := by
  cases l <;> rfl

theorem commonpath2_fileInDir_root (name : List Char) (hn : cleanComp name) :
    commonpath2 (fileInDir [] name) "/" = some "/" := by
  have hp : (fileInDir [] name).data.head? = some '/' := rfl
  have hcomps : pyPathComps (fileInDir [] name).data = [name] :=
    pyPathComps_fileInDir [] name (by simp) hn
  simp only [commonpath2, hp, hcomps]
  rw [show pyPathComps ("/" : String).data = [] by decide, commonPrefixL_nil_right]
  simp [joinChar]

theorem gcpLoop_const (comps : List (List Char)) (hne : comps ≠ [])
    (hc : ∀ c ∈ comps, cleanComp c) :
    ∀ (us : List String) (acc : List String),
      (∀ u ∈ us, ∃ name, cleanComp name ∧ (urlsplit u).path = fileInDir comps name) →
      gcpLoop (dirStr comps) acc us = some (dirStr comps, acc) := by
  intro us
  induction us with
  | nil => intro acc _; rfl
  | cons u us ih =>
    intro acc hp
    obtain ⟨name, hn, hpath⟩ := hp u (List.mem_cons_self u us)
    simp only [gcpLoop, hpath, commonpath2_fileInDir_dirStr comps name hc hn]
    rw [if_pos (dirStr_ne_root comps hne hc)]
    exact ih acc fun x hx => hp x (List.mem_cons_of_mem u hx)

theorem gcpLoop_root :
    ∀ (us : List String) (acc : List String), "/" ∈ acc →
      (∀ u ∈ us, ∃ name, cleanComp name ∧ (urlsplit u).path = fileInDir [] name) →
      gcpLoop "/" acc us = some ("/", acc) := by
  intro us
  induction us with
  | nil => intro acc _ _; rfl
  | cons u us ih =>
    intro acc hacc hp
    obtain ⟨name, hn, hpath⟩ := hp u (List.mem_cons_self u us)
    have hpar : pyParent (urlsplit u).path = some "/" := by
      rw [hpath, pyParent_fileInDir [] name (by simp) hn, dirStr_nil]
    simp only [gcpLoop, hpath, commonpath2_fileInDir_root name hn]
    rw [if_neg (by simp), ← hpath, hpar, if_pos hacc]
    exact ih acc hacc fun x hx => hp x (List.mem_cons_of_mem u hx)

theorem joinChar_getLast_ne_slash :
    ∀ (comps : List (List Char)), comps ≠ [] → (∀ c ∈ comps, cleanComp c) →
      ∃ ch, (joinChar '/' comps).getLast? = some ch ∧ ch ≠ '/' := by
  intro comps
  induction comps with
  | nil => intro h _; exact absurd rfl h
  | cons c rest ih =>
    intro _ hc
    cases rest with
    | nil =>
      have hcne := (hc c (List.mem_cons_self c [])).1
      obtain ⟨ch, hch⟩ : ∃ ch, c.getLast? = some ch := by
        cases hl : c.getLast? with
        | none => exact absurd (List.getLast?_eq_none_iff.mp hl) hcne
        | some ch => exact ⟨ch, rfl⟩
      refine ⟨ch, ?_, fun he => ?_⟩
      · simpa [joinChar] using hch
      · exact (hc c (List.mem_cons_self c [])).2.2
          (he ▸ List.mem_of_getLast?_eq_some hch)
    | cons d ds =>
      obtain ⟨ch, hch, hne⟩ := ih (by simp) fun x hx => hc x (List.mem_cons_of_mem c hx)
      refine ⟨ch, ?_, hne⟩
      have h1 : joinChar '/' (c :: d :: ds) =
          c ++ (['/'] ++ joinChar '/' (d :: ds)) := rfl
      rw [h1, List.getLast?_append, List.getLast?_append, hch]
      rfl

theorem dirStr_getLast_ne_slash (comps : List (List Char)) (hne : comps ≠ [])
    (hc : ∀ c ∈ comps, cleanComp c) :
    ∃ ch, (dirStr comps).data.getLast? = some ch ∧ ch ≠ '/' := by
  obtain ⟨ch, hch, hne'⟩ := joinChar_getLast_ne_slash comps hne hc
  refine ⟨ch, ?_, hne'⟩
  have h1 : (dirStr comps).data = ['/'] ++ joinChar '/' comps := rfl
  rw [h1, List.getLast?_append, hch]
  rfl

theorem slashFixFrom_single (D : String) (ch : Char) (hch : D.data.getLast? = some ch)
    (hne : ch ≠ '/') : slashFixFrom 1 0 [D] = some [D ++ "/"] := by
  simp only [slashFixFrom, show ([D] : List String)[0]? = some D from rfl, hch]
  rw [if_pos hne]
  simp only [List.cons_append, List.nil_append, List.erase_cons_head]

/-- C6.  For every nonempty sorted list of file-scheme URIs whose paths all
lie in one and the same directory (each path is `<dir>/<name>` for the same
well-formed absolute directory), `get_common_paths` returns exactly one
prefix, equal to that directory with a trailing path separator.  The
directory is `dirStr comps`, i.e. `/` joined over its components. -/
theorem get_common_paths_single_directory
    (comps : List (List Char)) (hc : ∀ c ∈ comps, cleanComp c)
    (url_list : List String) (hne : url_list ≠ [])
    (_hsorted : pySortedB url_list = true)
    (hfiles : ∀ u ∈ url_list, (urlsplit u).scheme = "file")
    (hdir : ∀ u ∈ url_list, ∃ name, cleanComp name ∧
      (urlsplit u).path = fileInDir comps name) :
    get_common_paths url_list =
      some [if comps = [] then "/" else dirStr comps ++ "/"] := by
  obtain ⟨f, fs, rfl⟩ := List.exists_cons_of_ne_nil hne
  have hlead : gcpLead [] (f :: fs) = ([], f :: fs) := by
    simp [gcpLead, hfiles f (List.mem_cons_self f fs)]
  obtain ⟨name, hn, hpath⟩ := hdir f (List.mem_cons_self f fs)
  have hpar : pyParent (urlsplit f).path = some (dirStr comps) := by
    rw [hpath]; exact pyParent_fileInDir comps name hc hn
  by_cases hcomps : comps = []
  · subst hcomps
    rw [if_pos rfl]
    rw [dirStr_nil] at hpar
    cases fs with
    | nil =>
      simp only [get_common_paths, hlead, hpar]
      rfl
    | cons u us =>
      obtain ⟨name2, hn2, hpath2⟩ := hdir u (by simp)
      have hcp2 : commonpath2 (urlsplit u).path "/" = some "/" := by
        rw [hpath2]; exact commonpath2_fileInDir_root name2 hn2
      have hpar2 : pyParent (urlsplit u).path = some "/" := by
        rw [hpath2, pyParent_fileInDir [] name2 (by simp) hn2, dirStr_nil]
      have hloop : gcpLoop "/" ["/"] us = some ("/", ["/"]) :=
        gcpLoop_root us ["/"] (by simp)
          fun x hx => hdir x (List.mem_cons_of_mem f (List.mem_cons_of_mem u hx))
      have hstep : gcpLoop "/" [] (u :: us) = some ("/", ["/"]) := by
        simp only [gcpLoop, hcp2]
        rw [if_neg (by simp), hpar2]
        simpa using hloop
      simp only [get_common_paths, hlead, hpar, hstep]
      rfl
  · rw [if_neg hcomps]
    have hloop : gcpLoop (dirStr comps) [] fs = some (dirStr comps, []) :=
      gcpLoop_const comps hcomps hc fs []
        fun x hx => hdir x (List.mem_cons_of_mem f hx)
    obtain ⟨ch, hch, hchne⟩ := dirStr_getLast_ne_slash comps hcomps hc
    have hsf : slashFixFrom 1 0 [dirStr comps] = some [dirStr comps ++ "/"] :=
      slashFixFrom_single (dirStr comps) ch hch hchne
    simp only [get_common_paths, hlead, hpar, hloop, List.not_mem_nil, if_false,
      List.nil_append, List.length_cons, List.length_nil]
    exact hsf

/-- Witness for C6 at two concrete files in `/data`. -/
theorem get_common_paths_single_directory_witness :
    get_common_paths ["file://h/data/f1", "file://h/data/f2"] = some ["/data/"] := by
  have h := get_common_paths_single_directory [['d', 'a', 't', 'a']] (by decide)
    ["file://h/data/f1", "file://h/data/f2"] (by decide) (by decide) (by decide)
    (by
      intro u hu
      rcases List.mem_cons.mp hu with rfl | hu
      · exact ⟨['f', '1'], by decide, by decide⟩
      · rcases List.mem_cons.mp hu with rfl | hu
        · exact ⟨['f', '2'], by decide, by decide⟩
        · cases hu)
  exact h.trans (by decide)

end COMPSs
